import Mathlib

/-!
Shallow embedding of the metadata-generation pipeline of the Universal-Page
CLI (`src/commands/metadata/generate.ts` and `src/common/validators.ts`).

Filesystem and library effects are made explicit:
* a directory listing becomes the list of entries `readdir` would return;
* `readFile` + `JSON.parse` of a metadata file becomes an `Option Json`
  (`none` models a read or parse exception);
* the image-introspection (`sharp`), hashing (`keccak256`) and `writeFile`
  capabilities become function-valued fields of a capability structure;
* `console.warn` output becomes an explicit list of warning strings;
* the `cli-progress` bar becomes an explicit list of progress events.

JavaScript `Number` applied to a captured digit string is modelled as exact
decimal interpretation into `Nat`.
-/

namespace UPCli

/-- Parsed JSON values, as produced by a successful `JSON.parse`.
Numbers are modelled as integers (the claims only inspect truthiness).
Objects carry their key/value pairs; `JSON.parse` output has unique keys. -/
inductive Json where
  | null
  | bool (b : Bool)
  | num (n : Int)
  | str (s : String)
  | arr (xs : List Json)
  | obj (fields : List (String × Json))

/-- Property lookup in the field list of an object (first match; parsed objects
have unique keys). -/
def getField : List (String × Json) → String → Option Json
  | [], _ => none
  | (k, v) :: rest, key => if k = key then some v else getField rest key

/-- JavaScript property access `value?.key` on a parsed JSON value:
only objects expose the parsed properties; everything else yields
`undefined`, modelled as `none`. -/
def getProp : Json → String → Option Json
  | .obj fs, key => getField fs key
  | _, _ => none

/-- JavaScript truthiness of a parsed JSON value
(falsy: `null`, `false`, `0`, `""`). -/
def jsTruthy : Json → Bool
  | .null => false
  | .bool b => b
  | .num n => !(n == 0)
  | .str s => !(s == "")
  | .arr _ => true
  | .obj _ => true

/-- Truthiness of a possibly-`undefined` value (`undefined` is falsy). -/
def jsTruthyOpt : Option Json → Bool
  | none => false
  | some v => jsTruthy v

/-- Character range test by code point. -/
def inRange (c : Char) (lo hi : Char) : Bool :=
  Nat.ble lo.toNat c.toNat && Nat.ble c.toNat hi.toNat

/-- The regex class `\d`, i.e. `[0-9]`. -/
def isDigitChar (c : Char) : Bool := inRange c '0' '9'

/-- The regex class `[a-z]`. -/
def isLowerAlpha (c : Char) : Bool := inRange c 'a' 'z'

/-- Numeric value of a digit character. -/
def digitVal (c : Char) : Nat := c.toNat - '0'.toNat

/-- Decimal interpretation of a digit sequence (`Number("007") = 7`). -/
def decimalValue (cs : List Char) : Nat :=
  cs.foldl (fun a c => a * 10 + digitVal c) 0

/-- Model of `path.join(dir, file)` for a plain entry name (no normalization needed
for the names `readdir` returns). -/
def joinPath (dir file : String) : String := dir ++ "/" ++ file

/-- Model of `path.basename`: the part of the path after the last separator. -/
def basename (s : String) : String :=
  String.mk ((s.data.reverse.takeWhile (fun c => !(c == '/'))).reverse)

/-- The pattern `tokenMetadataNamePattern = /^(\d+)\.json$/` applied to a character
list: the whole input must be a nonempty digit run followed by `.json`;
on a match, the captured digits are converted with `Number`. -/
def parseTokenName (cs : List Char) : Option Nat :=
  let ds := cs.takeWhile isDigitChar
  let rest := cs.dropWhile isDigitChar
  if ds.isEmpty then none
  else if rest = ['.', 'j', 's', 'o', 'n'] then some (decimalValue ds)
  else none

/-- Classification of a metadata filename
(`tokenMetadataNamePattern.exec` + `Number(info[1])` in `readMetadataDir`). -/
def parseTokenMetadataName (s : String) : Option Nat := parseTokenName s.data

/-- The three media categories of the `MediaCategory` union type. -/
inductive MediaCategory where
  | image
  | asset
  | icon
deriving DecidableEq

/-- A classified media file (`MediaFileInfo` in the source). -/
structure MediaFileInfo where
  file : String
  category : MediaCategory
  index : Nat
  extension : String
deriving DecidableEq

/-- The optional `(?:(image|asset|icon)-)` group of `mediaNamePattern`.
When the name starts with one of the three tags, the group must consume it
(no digit can start at the tag, so regex backtracking cannot succeed
without the group). -/
def stripCategoryTag : List Char → Option MediaCategory × List Char
  | 'i' :: 'm' :: 'a' :: 'g' :: 'e' :: '-' :: rest => (some .image, rest)
  | 'a' :: 's' :: 's' :: 'e' :: 't' :: '-' :: rest => (some .asset, rest)
  | 'i' :: 'c' :: 'o' :: 'n' :: '-' :: rest => (some .icon, rest)
  | cs => (none, cs)

/-- The `(\d+)\.([a-z]+)$` tail of `mediaNamePattern`: a nonempty digit
run, a literal dot, then a nonempty lowercase-letter run reaching the end. -/
def parseIndexExt (cs : List Char) : Option (Nat × String) :=
  let ds := cs.takeWhile isDigitChar
  let rest := cs.dropWhile isDigitChar
  if ds.isEmpty then none
  else
    match rest with
    | '.' :: ext =>
      if !ext.isEmpty && ext.all isLowerAlpha then some (decimalValue ds, String.mk ext)
      else none
    | _ => none

/-- The pattern `mediaNamePattern = /^(?:(image|asset|icon)-)?(\d+)\.([a-z]+)$/`:
the optional category group, the index digits and the extension. -/
def mediaNameMatch (cs : List Char) : Option (Option MediaCategory × Nat × String) :=
  let (cat, rest) := stripCategoryTag cs
  match parseIndexExt rest with
  | some (i, ext) => some (cat, i, ext)
  | none => none

/-- Function `isImageTypeSupported` from the source. -/
def isImageTypeSupported (ext : String) : Bool :=
  (["jpg", "jpeg", "png", "webp", "gif", "svg"] : List String).contains ext

/-- A single-quote character (code point 39), used in the warning text. -/
def squoteChar : Char := Char.ofNat 39

/-- Wrap a string in single quotes, as the template literal
`Unsupported image file type ...` does. -/
def squoted (s : String) : String :=
  String.mk [squoteChar] ++ s ++ String.mk [squoteChar]

/-- Function `parseMediaFile`: classify a media path; the second component models
the `console.warn` calls the function performs (without terminal color
codes). A name matching no pattern is skipped silently; a bare-digits name
with an unsupported extension is skipped with a warning. -/
def parseMediaFile (file : String) : Option MediaFileInfo × List String :=
  match mediaNameMatch (basename file).data with
  | none => (none, [])
  | some (catOpt, i, ext) =>
    match catOpt with
    | some cat => (some ⟨file, cat, i, ext⟩, [])
    | none =>
      if isImageTypeSupported ext then (some ⟨file, .image, i, ext⟩, [])
      else (none, ["Unsupported image file type " ++ squoted ext ++ ": " ++ file])

/-- Function `readMediaDir` over an already-obtained directory listing: classify
each entry, keeping matches and accumulating warnings in scan order.
(The source additionally wraps a `readdir` failure into a directory-level
error; the listing given here models a successful `readdir`.) -/
def readMediaDir (dir : String) : List String → List MediaFileInfo × List String
  | [] => ([], [])
  | f :: rest =>
    let (info, ws) := parseMediaFile (joinPath dir f)
    let (infos, ws2) := readMediaDir dir rest
    match info with
    | some i => (i :: infos, ws ++ ws2)
    | none => (infos, ws ++ ws2)

/-- A discovered token (`OpenSeaToken` in the source); `metadata` is the
raw parsed JSON the source casts to its `OpenSeaMetadata` type. -/
structure OpenSeaToken where
  file : String
  index : Nat
  metadata : Json

/-- The error text thrown inside the per-file `catch` of `readMetadataDir`. -/
def tokenReadFailMsg (dir name : String) : String :=
  "Failed to read token: " ++ joinPath dir name

/-- The warning printed for a parsed file lacking a truthy
`name`/`image`. -/
def missingFieldMsg (dir name : String) : String :=
  "Token is missing name and/or image: " ++ joinPath dir name

/-- The directory-level error rethrown by the outer `catch` of
`readMetadataDir`. -/
def dirFailMsg (dir : String) : String :=
  "Failed to read tokens from metadata directory: " ++ dir

/-- The `for` loop of `readMetadataDir` over the listing. Each entry
carries its name and the result of `readFile` + `JSON.parse` (`none`
models either throwing). Returns the collected tokens (or the first inner
error) together with the warnings printed before any failure. -/
def readMetadataLoop (dir : String) :
    List (String × Option Json) → Except String (List OpenSeaToken) × List String
  | [] => (.ok [], [])
  | (name, content) :: rest =>
    match parseTokenMetadataName name with
    | none => readMetadataLoop dir rest
    | some idx =>
      match content with
      | none => (.error (tokenReadFailMsg dir name), [])
      | some j =>
        let (res, ws) := readMetadataLoop dir rest
        if jsTruthyOpt (getProp j "name") && jsTruthyOpt (getProp j "image") then
          (Except.map (fun ts => ⟨joinPath dir name, idx, j⟩ :: ts) res, ws)
        else
          (res, missingFieldMsg dir name :: ws)

/-- Function `readMetadataDir`: run the loop; any inner failure is caught by the
outer `catch` and rethrown as a single directory-level error. -/
def readMetadataDir (dir : String) (files : List (String × Option Json)) :
    Except String (List OpenSeaToken) × List String :=
  match readMetadataLoop dir files with
  | (.ok ts, ws) => (.ok ts, ws)
  | (.error _, ws) => (.error (dirFailMsg dir), ws)

/-- The library capabilities used by `buildFileInfo`:
`probe` models `sharp(file).metadata()` (it may reject, and each of
`width`/`height` may be absent or zero); `readBytes` models
`readFile(file)`; `keccak256` models the hashing library over raw bytes
(bytes are naturals below 256). -/
structure MediaCaps where
  probe : String → Except String (Option Nat × Option Nat)
  readBytes : String → Except String (List Nat)
  keccak256 : List Nat → List Nat

/-- Lowercase hex digit of a value below 16. -/
def hexDigit (n : Nat) : Char :=
  if n < 10 then Char.ofNat ('0'.toNat + n) else Char.ofNat ('a'.toNat + (n - 10))

/-- Two-digit lowercase hex rendering of one byte. -/
def hexByte (b : Nat) : List Char := [hexDigit (b / 16 % 16), hexDigit (b % 16)]

/-- Model of `Buffer.toString(hex)`: lowercase hex, two characters per byte. -/
def hexOfBytes (bs : List Nat) : String := String.mk (List.flatten (bs.map hexByte))

/-- The descriptor `buildFileInfo` returns for an image. -/
structure FileInfoOut where
  width : Nat
  height : Nat
  hashFunction : String
  hash : String
  url : String
deriving DecidableEq

/-- Function `buildFileInfo`: only the `image` branch produces a value; the
implicit fall-through for every other category returns `undefined`
(modelled `.ok none`). The truthiness test `!width || !height` throws when
either dimension is absent or zero. -/
def buildFileInfo (caps : MediaCaps) (baseUri : String) (info : MediaFileInfo) :
    Except String (Option FileInfoOut) :=
  match info.category with
  | .image =>
    match caps.probe info.file with
    | .error e => .error e
    | .ok (wOpt, hOpt) =>
      match wOpt, hOpt with
      | some w, some h =>
        if w == 0 || h == 0 then .error ("Failed to read image: " ++ info.file)
        else
          match caps.readBytes info.file with
          | .error e => .error e
          | .ok content =>
            .ok (some
              { width := w
                height := h
                hashFunction := "keccak256(bytes)"
                hash := "0x" ++ hexOfBytes (caps.keccak256 content)
                url := baseUri ++ "/" ++ toString info.index ++ "." ++ info.extension })
      | _, _ => .error ("Failed to read image: " ++ info.file)
  | _ => .ok none

/-- A run-level link entry. -/
structure LinkOut where
  title : String
  url : String
deriving DecidableEq

/-- One mapped attribute (`{key: a.trait_type, value: a.value}`); raw
property access may yield `undefined`. -/
structure AttrOut where
  key : Option Json
  value : Option Json

/-- The object serialized under the `LSP4Metadata` key of each output
file. `images` is the outer array `[await Promise.all(imageJobs)]`, whose
inner elements are whatever `buildFileInfo` resolved to. -/
structure LSP4Out where
  name : Option Json
  description : Option Json
  attributes : Option (List AttrOut)
  icon : Option FileInfoOut
  images : Option (List (List (Option FileInfoOut)))
  links : Option (List LinkOut)

/-- Model of `token.metadata.attributes?.map(...)`: absent or `null` attributes
stay absent; an array maps elementwise; a truthy non-array value has no
`map` method and throws a `TypeError` at runtime. (Tokens produced by the
scan always carry an object with a truthy `name`, so `metadata` itself is
an object here.) -/
def buildAttributes (metadata : Json) : Except String (Option (List AttrOut)) :=
  match getProp metadata "attributes" with
  | none => .ok none
  | some .null => .ok none
  | some (.arr xs) =>
    .ok (some (xs.map (fun a => ⟨getProp a "trait_type", getProp a "value"⟩)))
  | some _ => .error "TypeError: token.metadata.attributes.map is not a function"

/-- Progress-bar events of the `cli-progress` SingleBar:
`progress.start`, `progress.increment`, `progress.stop`. -/
inductive PEvent where
  | start (total : Nat)
  | inc
  | stop
deriving DecidableEq

/-- Number of `increment` events in a trace. -/
def countInc : List PEvent → Nat
  | [] => 0
  | .inc :: rest => countInc rest + 1
  | _ :: rest => countInc rest

/-- Capabilities of the assembly phase: the media capabilities plus
`writeFile` (which may throw). -/
structure BuildCaps where
  media : MediaCaps
  write : String → Except String Unit

/-- Run-level configuration threaded through `buildMetadata`. -/
structure BuildCtx where
  caps : BuildCaps
  baseUri : String
  outputDir : String
  links : Option (List LinkOut)
  mediaFiles : Option (List MediaFileInfo)

/-- Model of `mediaFiles?.find(info.index === token.index && info.category ===
icon)` followed by the conditional `buildFileInfo` call; an absent media
collection or no match leaves the icon `undefined`. -/
def buildIcon (ctx : BuildCtx) (idx : Nat) : Except String (Option FileInfoOut) :=
  let iconInfo :=
    match ctx.mediaFiles with
    | none => none
    | some ms => ms.find? (fun m => m.index == idx && m.category == MediaCategory.icon)
  match iconInfo with
  | some i => buildFileInfo ctx.caps.media ctx.baseUri i
  | none => .ok none

/-- Model of `Promise.all` over the per-image `buildFileInfo` jobs: collect all
results, propagating the first rejection. -/
def collectBuilds (caps : MediaCaps) (baseUri : String) :
    List MediaFileInfo → Except String (List (Option FileInfoOut))
  | [] => .ok []
  | m :: rest =>
    match buildFileInfo caps baseUri m with
    | .error e => .error e
    | .ok r =>
      match collectBuilds caps baseUri rest with
      | .error e => .error e
      | .ok rs => .ok (r :: rs)

/-- The `images` field: when a media collection was given, filter it to
matching image records, build each, and wrap the collected results as the
single element of an outer array (`[await Promise.all(imageJobs)]`). -/
def buildImages (ctx : BuildCtx) (idx : Nat) :
    Except String (Option (List (List (Option FileInfoOut)))) :=
  match ctx.mediaFiles with
  | none => .ok none
  | some ms =>
    let jobs := ms.filter (fun m => m.index == idx && m.category == MediaCategory.image)
    match collectBuilds ctx.caps.media ctx.baseUri jobs with
    | .error e => .error e
    | .ok infos => .ok (some [infos])

/-- The body of the per-token `for` loop of `buildMetadata`: map the
attributes, resolve the icon, resolve the images, assemble the record and
write `<outputDir>/<index>.json`. (Serialization of the record to its
JSON text is not modelled; the write capability receives the path.) -/
def tokenStep (ctx : BuildCtx) (token : OpenSeaToken) :
    Except String (String × LSP4Out) :=
  let file := joinPath ctx.outputDir (toString token.index ++ ".json")
  match buildAttributes token.metadata with
  | .error e => .error e
  | .ok attributes =>
    match buildIcon ctx token.index with
    | .error e => .error e
    | .ok icon =>
      match buildImages ctx token.index with
      | .error e => .error e
      | .ok images =>
        match ctx.caps.write file with
        | .error e => .error e
        | .ok _ =>
          .ok (file,
            { name := getProp token.metadata "name"
              description := getProp token.metadata "description"
              attributes := attributes
              icon := icon
              images := images
              links := ctx.links })

/-- The per-token loop: on success the `progress.increment()` of the token
fires and the loop continues; a throw aborts the remaining tokens with no
increment for the failing token. -/
def tokenLoop (ctx : BuildCtx) :
    List OpenSeaToken → Except String (List (String × LSP4Out)) × List PEvent
  | [] => (.ok [], [])
  | t :: rest =>
    match tokenStep ctx t with
    | .error e => (.error e, [])
    | .ok out =>
      let (res, evs) := tokenLoop ctx rest
      (Except.map (fun outs => out :: outs) res, PEvent.inc :: evs)

/-- Function `buildMetadata`: when a token collection was given, `progress.start`
fires, the loop runs, and the `finally` block emits `progress.stop` on
every exit path (success or error); with no token collection only the
`finally` stop fires. (`mkdir` of the output directory precedes the
progress bar and is not modelled.) -/
def buildMetadata (ctx : BuildCtx) (openSeaTokens : Option (List OpenSeaToken)) :
    Except String (List (String × LSP4Out)) × List PEvent :=
  match openSeaTokens with
  | none => (.ok [], [PEvent.stop])
  | some tokens =>
    let (res, evs) := tokenLoop ctx tokens
    (res, PEvent.start tokens.length :: (evs ++ [PEvent.stop]))

/-- The regex class `[1-9A-HJ-NP-Za-km-z]` (base58). -/
def base58Char (c : Char) : Bool :=
  inRange c '1' '9' || inRange c 'A' 'H' || inRange c 'J' 'N' ||
  inRange c 'P' 'Z' || inRange c 'a' 'k' || inRange c 'm' 'z'

/-- The regex class `[A-Za-z2-7]`. -/
def b32AnyChar (c : Char) : Bool :=
  inRange c 'A' 'Z' || inRange c 'a' 'z' || inRange c '2' '7'

/-- The regex class `[A-Z2-7]`. -/
def b32UpChar (c : Char) : Bool :=
  inRange c 'A' 'Z' || inRange c '2' '7'

/-- The regex class `[0-9A-F]`. -/
def hexUpChar (c : Char) : Bool :=
  inRange c '0' '9' || inRange c 'A' 'F'

/-- Length of the leading run satisfying `p`. -/
def countLeading (p : Char → Bool) (cs : List Char) : Nat :=
  (cs.takeWhile p).length

/-- One of the five address alternatives of `uriPattern`, matched at the
current position with nothing required after the greedy run:
`Qm[base58]{44,} | b[A-Za-z2-7]{58,} | B[A-Z2-7]{58,} | z[base58]{48,} |
F[0-9A-F]{50,}`. -/
def ipfsAltMatch : List Char → Bool
  | 'Q' :: 'm' :: rest => Nat.ble 44 (countLeading base58Char rest)
  | 'b' :: rest => Nat.ble 58 (countLeading b32AnyChar rest)
  | 'B' :: rest => Nat.ble 58 (countLeading b32UpChar rest)
  | 'z' :: rest => Nat.ble 48 (countLeading base58Char rest)
  | 'F' :: rest => Nat.ble 50 (countLeading hexUpChar rest)
  | _ => false

/-- Does `uriPattern` match starting exactly at this position: the scheme
token `ipfs://` followed by one of the address alternatives. -/
def ipfsMatchFrom : List Char → Bool
  | 'i' :: 'p' :: 'f' :: 's' :: ':' :: '/' :: '/' :: rest => ipfsAltMatch rest
  | _ => false

/-- Model of `uriPattern.exec(input)` succeeding: the pattern is unanchored, so the
match may start at any position of the input. -/
def ipfsContains : List Char → Bool
  | [] => false
  | c :: cs => ipfsMatchFrom (c :: cs) || ipfsContains cs

/-- The `IpfsUrl` validator of `src/common/validators.ts`: accept exactly
when `uriPattern.exec(input)` finds a match (inputs are strings here, so
the `isString` assertion always passes). -/
def ipfsUrlAccepts (s : String) : Bool := ipfsContains s.data

/-- The literal re-prompt message of the base-URI prompt. -/
def invalidIpfsMsg : String :=
  "Invalid IPFS URL. Please enter a valid IPFS URL, e.g. ipfs://bafybeiesesamfxkgronf4pf4maauei6svfas4vvzlhm7o4kzwnvbb3h5i4"

/-- The `validate` callback of the base-URI prompt in `invoke`: a passing
input returns `true`; a failing input returns the corrected-example
message (the thrown validation error is caught), which re-prompts. -/
def baseUriValidate (input : String) : Sum Bool String :=
  if ipfsUrlAccepts input then Sum.inl true else Sum.inr invalidIpfsMsg

/-- An address alternative matched exactly (the entire given character
list is the address, with the minimum repetition count or more). -/
def ipfsAddrExact : List Char → Bool
  | 'Q' :: 'm' :: rest => rest.all base58Char && Nat.ble 44 rest.length
  | 'b' :: rest => rest.all b32AnyChar && Nat.ble 58 rest.length
  | 'B' :: rest => rest.all b32UpChar && Nat.ble 58 rest.length
  | 'z' :: rest => rest.all base58Char && Nat.ble 48 rest.length
  | 'F' :: rest => rest.all hexUpChar && Nat.ble 50 rest.length
  | _ => false

/-- Modelled from the spec: a character sequence conforming to one of the
fixed ipfs-scheme address formats — the scheme token `ipfs://` followed by
a known multibase/multihash-style address, and nothing else. -/
def ipfsUrlConformsChars : List Char → Bool
  | 'i' :: 'p' :: 'f' :: 's' :: ':' :: '/' :: '/' :: rest => ipfsAddrExact rest
  | _ => false

/-- Modelled from the spec: a string that is exactly a scheme token
followed by a known address format. -/
def ipfsUrlConformsSpec (s : String) : Bool := ipfsUrlConformsChars s.data

/-- Declarative restatement (spec §4.2/§8.3) of which scanned entries the
metadata scan keeps: entries whose name matches the token pattern, whose
content parsed, and whose parsed value has truthy `name` and `image`. -/
def validTokensSpec (dir : String) : List (String × Option Json) → List OpenSeaToken
  | [] => []
  | (name, content) :: rest =>
    match parseTokenMetadataName name, content with
    | some idx, some j =>
      if jsTruthyOpt (getProp j "name") && jsTruthyOpt (getProp j "image") then
        ⟨joinPath dir name, idx, j⟩ :: validTokensSpec dir rest
      else validTokensSpec dir rest
    | _, _ => validTokensSpec dir rest

lemma all_takeWhile (p : α → Bool) (l : List α) : (l.takeWhile p).all p = true := by
  induction l with
  | nil => rfl
  | cons c cs ih =>
    by_cases h : p c = true
    · simp [List.takeWhile, h, ih]
    · simp [List.takeWhile, Bool.eq_false_iff.mpr h]

lemma takeWhile_append_all (p : α → Bool) (t u : List α) (h : t.all p = true) :
    (t ++ u).takeWhile p = t ++ u.takeWhile p := by
  induction t with
  | nil => rfl
  | cons c cs ih =>
    simp only [List.all_cons, Bool.and_eq_true] at h
    simp [List.takeWhile, h.1, ih h.2]

lemma dropWhile_append_all (p : α → Bool) (t u : List α) (h : t.all p = true) :
    (t ++ u).dropWhile p = u.dropWhile p := by
  induction t with
  | nil => rfl
  | cons c cs ih =>
    simp only [List.all_cons, Bool.and_eq_true] at h
    simp [List.dropWhile, h.1, ih h.2]

/-- C5: for every string S, `parseTokenMetadataName S` succeeds exactly
when S is a nonempty digit sequence followed by `.json` (the anchored
pattern), and the returned index is the decimal interpretation of that
digit sequence; the function is a pure total Lean function. -/
theorem parseTokenMetadataName_spec (s : String) (n : Nat) :
    parseTokenMetadataName s = some n ↔
      ∃ ds : List Char, ds ≠ [] ∧ ds.all isDigitChar = true ∧
        s.data = ds ++ ('.' :: 'j' :: 's' :: 'o' :: 'n' :: []) ∧ n = decimalValue ds := by
  unfold parseTokenMetadataName parseTokenName
  constructor
  · intro h
    simp only at h
    by_cases he : (s.data.takeWhile isDigitChar).isEmpty = true
    · simp [he] at h
    · rw [if_neg he] at h
      by_cases hr : s.data.dropWhile isDigitChar = ['.', 'j', 's', 'o', 'n']
      · rw [if_pos hr] at h
        refine ⟨s.data.takeWhile isDigitChar, ?_, all_takeWhile _ _, ?_, ?_⟩
        · simpa [List.isEmpty_iff] using he
        · rw [← hr]
          exact (List.takeWhile_append_dropWhile isDigitChar s.data).symm
        · exact (Option.some_injective _ h).symm
      · rw [if_neg hr] at h
        exact absurd h (by simp)
  · rintro ⟨ds, hne, hall, hdata, hval⟩
    have ht : s.data.takeWhile isDigitChar = ds := by
      rw [hdata, takeWhile_append_all isDigitChar ds _ hall]
      have hjson : List.takeWhile isDigitChar ['.', 'j', 's', 'o', 'n'] = [] := by decide
      simp [hjson]
    have hd : s.data.dropWhile isDigitChar = ['.', 'j', 's', 'o', 'n'] := by
      rw [hdata, dropWhile_append_all isDigitChar ds _ hall]
      decide
    simp only [ht, hd]
    rw [if_neg (by simpa [List.isEmpty_iff] using hne)]
    simp [hval]

/-- Closed instance of `parseTokenMetadataName_spec`: `007.json` parses to
index 7. -/
theorem parseTokenMetadataName_spec_witness :
    parseTokenMetadataName "007.json" = some 7 :=
  (parseTokenMetadataName_spec "007.json" 7).mpr
    ⟨['0', '0', '7'], by decide, by decide, by decide, by decide⟩

lemma readMetadataLoop_error_of_parse_failure (dir : String) :
    ∀ files : List (String × Option Json),
      (∃ nm, (nm, (none : Option Json)) ∈ files ∧ (parseTokenMetadataName nm).isSome = true) →
      ∃ e, (readMetadataLoop dir files).1 = .error e := by
  intro files
  induction files with
  | nil => rintro ⟨nm, hmem, _⟩; cases hmem
  | cons hd rest ih =>
    rintro ⟨nm, hmem, hsome⟩
    obtain ⟨name, content⟩ := hd
    rcases hp : parseTokenMetadataName name with _ | idx
    · have hrest : (nm, (none : Option Json)) ∈ rest := by
        rcases List.mem_cons.mp hmem with heq | h
        · obtain ⟨h1, h2⟩ := Prod.mk.injEq .. ▸ congrArg id heq
          · exfalso
            rw [show nm = name from congrArg Prod.fst heq] at hsome
            rw [hp] at hsome
            cases hsome
        · exact h
      obtain ⟨e, he⟩ := ih ⟨nm, hrest, hsome⟩
      refine ⟨e, ?_⟩
      simp only [readMetadataLoop, hp]
      exact he
    · rcases content with _ | j
      · exact ⟨tokenReadFailMsg dir name, by simp [readMetadataLoop, hp]⟩
      · have hrest : (nm, (none : Option Json)) ∈ rest := by
          rcases List.mem_cons.mp hmem with heq | h
          · cases congrArg Prod.snd heq
          · exact h
        obtain ⟨e, he⟩ := ih ⟨nm, hrest, hsome⟩
        simp only [readMetadataLoop, hp]
        rcases hl : readMetadataLoop dir rest with ⟨res, ws⟩
        rw [hl] at he
        simp only at he
        subst he
        by_cases hg : (jsTruthyOpt (getProp j "name") && jsTruthyOpt (getProp j "image")) = true
        · exact ⟨e, by simp [hg, Except.map]⟩
        · exact ⟨e, by simp [Bool.eq_false_iff.mpr hg]⟩

/-- C4: if any listed file matches the metadata filename pattern but its
content fails to parse (`none`), the whole scan fails with the
directory-naming error and no token collection is produced, regardless of
the other files. -/
theorem metadata_scan_fatal_on_parse_failure (dir name : String)
    (pre post : List (String × Option Json))
    (hmatch : (parseTokenMetadataName name).isSome = true) :
    (readMetadataDir dir (pre ++ (name, none) :: post)).1 = .error (dirFailMsg dir) := by
  obtain ⟨e, he⟩ := readMetadataLoop_error_of_parse_failure dir (pre ++ (name, none) :: post)
    ⟨name, by simp, hmatch⟩
  unfold readMetadataDir
  rcases hl : readMetadataLoop dir (pre ++ (name, none) :: post) with ⟨res, ws⟩
  rw [hl] at he
  simp only at he
  subst he
  rfl

/-- Closed instance of `metadata_scan_fatal_on_parse_failure`: one
unparsable `2.json` beside a valid `1.json` aborts the whole scan. -/
theorem metadata_scan_fatal_witness :
    (readMetadataDir "md"
      [("1.json", some (.obj [("name", .str "a"), ("image", .str "b")])),
       ("2.json", none)]).1 = .error (dirFailMsg "md") :=
  metadata_scan_fatal_on_parse_failure "md" "2.json"
    [("1.json", some (.obj [("name", .str "a"), ("image", .str "b")]))] [] (by decide)

lemma readMetadataLoop_ok_of_all_parsed (dir : String) :
    ∀ files : List (String × Option Json),
      (∀ p ∈ files, (parseTokenMetadataName p.1).isSome = true → p.2.isSome = true) →
      (readMetadataLoop dir files).1 = .ok (validTokensSpec dir files) := by
  intro files
  induction files with
  | nil => intro _; rfl
  | cons hd rest ih =>
    intro hall
    obtain ⟨name, content⟩ := hd
    have hrest : ∀ p ∈ rest, (parseTokenMetadataName p.1).isSome = true → p.2.isSome = true :=
      fun p hp => hall p (List.mem_cons_of_mem _ hp)
    rcases hp : parseTokenMetadataName name with _ | idx
    · simp only [readMetadataLoop, validTokensSpec, hp]
      exact ih hrest
    · rcases hc : content with _ | j
      · exfalso
        have := hall (name, content) (List.mem_cons_self _ _) (by rw [hp]; rfl)
        rw [hc] at this
        cases this
      · simp only [readMetadataLoop, validTokensSpec, hp]
        rcases hl : readMetadataLoop dir rest with ⟨res, ws⟩
        have hres : res = .ok (validTokensSpec dir rest) := by
          have := ih hrest
          rw [hl] at this
          exact this
        subst hres
        by_cases hg : (jsTruthyOpt (getProp j "name") && jsTruthyOpt (getProp j "image")) = true
        · simp [hg, Except.map]
        · simp [Bool.eq_false_iff.mpr hg]

lemma readMetadataLoop_warn_mem (dir : String) :
    ∀ (files : List (String × Option Json)) (name : String) (j : Json),
      (name, some j) ∈ files →
      (parseTokenMetadataName name).isSome = true →
      (jsTruthyOpt (getProp j "name") && jsTruthyOpt (getProp j "image")) = false →
      (∀ p ∈ files, (parseTokenMetadataName p.1).isSome = true → p.2.isSome = true) →
      missingFieldMsg dir name ∈ (readMetadataLoop dir files).2 := by
  intro files
  induction files with
  | nil => intro name j hmem; cases hmem
  | cons hd rest ih =>
    intro name j hmem hsome hguard hall
    obtain ⟨hname, hcontent⟩ := hd
    have hrest : ∀ p ∈ rest, (parseTokenMetadataName p.1).isSome = true → p.2.isSome = true :=
      fun p hp => hall p (List.mem_cons_of_mem _ hp)
    rcases List.mem_cons.mp hmem with heq | hmem2
    · have h1 : hname = name := (congrArg Prod.fst heq).symm
      have h2 : hcontent = some j := (congrArg Prod.snd heq).symm
      subst h1; subst h2
      obtain ⟨idx, hp⟩ := Option.isSome_iff_exists.mp hsome
      simp only [readMetadataLoop, hp]
      rcases hl : readMetadataLoop dir rest with ⟨res, ws⟩
      simp [hguard]
    · rcases hp : parseTokenMetadataName hname with _ | idx
      · simp only [readMetadataLoop, hp]
        exact ih name j hmem2 hsome hguard hrest
      · rcases hc : hcontent with _ | j2
        · exfalso
          have := hall (hname, hcontent) (List.mem_cons_self _ _) (by rw [hp]; rfl)
          rw [hc] at this
          cases this
        · have hmem3 := ih name j hmem2 hsome hguard hrest
          simp only [readMetadataLoop, hp]
          rcases hl : readMetadataLoop dir rest with ⟨res, ws⟩
          rw [hl] at hmem3
          simp only at hmem3
          by_cases hg : (jsTruthyOpt (getProp j2 "name") && jsTruthyOpt (getProp j2 "image")) = true
          · simpa [hg] using hmem3
          · simp [Bool.eq_false_iff.mpr hg]
            exact Or.inr hmem3

lemma validTokensSpec_skip (dir name : String) (j : Json)
    (hguard : (jsTruthyOpt (getProp j "name") && jsTruthyOpt (getProp j "image")) = false) :
    ∀ pre post : List (String × Option Json),
      validTokensSpec dir (pre ++ (name, some j) :: post) = validTokensSpec dir (pre ++ post) := by
  intro pre post
  induction pre with
  | nil =>
    simp only [List.nil_append, validTokensSpec]
    rcases hp : parseTokenMetadataName name with _ | idx
    · rfl
    · simp [hguard]
  | cons hd rest ih =>
    obtain ⟨hname, hcontent⟩ := hd
    simp only [List.cons_append, validTokensSpec]
    rcases hp : parseTokenMetadataName hname with _ | idx
    · exact ih
    · rcases hcontent with _ | j2
      · exact ih
      · by_cases hg : (jsTruthyOpt (getProp j2 "name") && jsTruthyOpt (getProp j2 "image")) = true
        · simp [hg, ih]
        · simp [Bool.eq_false_iff.mpr hg, ih]

lemma readMetadataDir_snd (dir : String) (files : List (String × Option Json)) :
    (readMetadataDir dir files).2 = (readMetadataLoop dir files).2 := by
  unfold readMetadataDir
  rcases hl : readMetadataLoop dir files with ⟨res, ws⟩
  cases res <;> rfl

/-- C7: a file that parses but lacks a truthy `name` or `image` is
excluded from the token collection with a warning only; the scan still
succeeds and returns exactly the valid entries of the remaining listing. -/
theorem metadata_missing_fields_skipped (dir name : String) (j : Json)
    (pre post : List (String × Option Json))
    (hmatch : (parseTokenMetadataName name).isSome = true)
    (hguard : (jsTruthyOpt (getProp j "name") && jsTruthyOpt (getProp j "image")) = false)
    (hparsed : ∀ p ∈ pre ++ post, (parseTokenMetadataName p.1).isSome = true → p.2.isSome = true) :
    (readMetadataDir dir (pre ++ (name, some j) :: post)).1 =
        .ok (validTokensSpec dir (pre ++ post)) ∧
      missingFieldMsg dir name ∈ (readMetadataDir dir (pre ++ (name, some j) :: post)).2 := by
  have hall : ∀ p ∈ pre ++ (name, some j) :: post,
      (parseTokenMetadataName p.1).isSome = true → p.2.isSome = true := by
    intro p hp
    rcases List.mem_append.mp hp with h | h
    · exact hparsed p (List.mem_append.mpr (Or.inl h))
    · rcases List.mem_cons.mp h with heq | h2
      · subst heq; intro _; rfl
      · exact hparsed p (List.mem_append.mpr (Or.inr h2))
  constructor
  · have hok := readMetadataLoop_ok_of_all_parsed dir (pre ++ (name, some j) :: post) hall
    unfold readMetadataDir
    rcases hl : readMetadataLoop dir (pre ++ (name, some j) :: post) with ⟨res, ws⟩
    rw [hl] at hok
    simp only at hok
    subst hok
    simp [validTokensSpec_skip dir name j hguard pre post]
  · rw [readMetadataDir_snd]
    exact readMetadataLoop_warn_mem dir (pre ++ (name, some j) :: post) name j (by simp)
      hmatch hguard hall

/-- Closed instance of `metadata_missing_fields_skipped`: a file with only
a description is skipped with a warning while its valid sibling is kept. -/
theorem metadata_missing_fields_skipped_witness :
    (readMetadataDir "md"
      [("1.json", some (.obj [("name", .str "a"), ("image", .str "b")])),
       ("2.json", some (.obj [("description", .str "x")]))]).1 =
        .ok (validTokensSpec "md"
          [("1.json", some (.obj [("name", .str "a"), ("image", .str "b")]))]) ∧
      missingFieldMsg "md" "2.json" ∈
        (readMetadataDir "md"
          [("1.json", some (.obj [("name", .str "a"), ("image", .str "b")])),
           ("2.json", some (.obj [("description", .str "x")]))]).2 :=
  metadata_missing_fields_skipped "md" "2.json" (.obj [("description", .str "x")])
    [("1.json", some (.obj [("name", .str "a"), ("image", .str "b")]))] []
    (by decide) (by decide) (by decide)

/-- C10: the required-field check gates on JavaScript truthiness, not key
presence: a file whose `name` or `image` key is present but falsy (empty
string, 0, null, false) is excluded with the same missing-name-and/or-image
warning as a file with the key absent. -/
theorem falsy_required_field_skipped (dir name : String) (j v : Json)
    (hmatch : (parseTokenMetadataName name).isSome = true)
    (hpresent : getProp j "name" = some v ∨ getProp j "image" = some v)
    (hfalsy : jsTruthy v = false) :
    readMetadataDir dir [(name, some j)] = (.ok [], [missingFieldMsg dir name]) := by
  obtain ⟨idx, hp⟩ := Option.isSome_iff_exists.mp hmatch
  have hguard : (jsTruthyOpt (getProp j "name") && jsTruthyOpt (getProp j "image")) = false := by
    rcases hpresent with h | h
    · rw [h]
      simp [jsTruthyOpt, hfalsy]
    · rw [h]
      simp [jsTruthyOpt, hfalsy]
  unfold readMetadataDir readMetadataLoop
  rw [hp]
  simp [hguard, readMetadataLoop]

/-- Closed instance of `falsy_required_field_skipped`: a present but empty
`name` is treated like an absent one. -/
theorem falsy_required_field_skipped_witness :
    readMetadataDir "md" [("3.json", some (.obj [("name", .str ""), ("image", .str "x")]))] =
      (.ok [], [missingFieldMsg "md" "3.json"]) :=
  falsy_required_field_skipped "md" "3.json"
    (.obj [("name", .str ""), ("image", .str "x")]) (.str "")
    (by decide) (Or.inl rfl) (by decide)

/-- C1 (code bug): `buildFileInfo` returns a value only in its `image`
branch; for every icon-category media record it falls through and yields
`undefined`, so no icon descriptor is ever built, although `buildMetadata`
looks the icon record up and calls the builder on it. -/
theorem icon_records_never_resolved (caps : MediaCaps) (baseUri : String)
    (info : MediaFileInfo) (h : info.category = MediaCategory.icon) :
    buildFileInfo caps baseUri info = .ok none := by
  obtain ⟨f, cat, idx, ext⟩ := info
  dsimp at h
  subst h
  rfl

/-- Closed instance of `icon_records_never_resolved`. -/
theorem icon_records_never_resolved_witness :
    buildFileInfo
      { probe := fun _ => .ok (some 3, some 4), readBytes := fun _ => .ok [],
        keccak256 := fun bs => bs }
      "ipfs://base" ⟨"media/icon-1.png", .icon, 1, "png"⟩ = .ok none :=
  icon_records_never_resolved _ _ _ rfl

/-- C6: media filename classification — `icon-3.png` is an icon with
index 3 and extension png; `5.jpg` (bare digits, supported extension)
resolves to an image; `5.xyz` (bare digits, unsupported extension) is
rejected with the unsupported-type warning; a name matching no pattern is
skipped silently with no warning. -/
theorem media_classification_cases :
    parseMediaFile "icon-3.png" = (some ⟨"icon-3.png", .icon, 3, "png"⟩, []) ∧
    parseMediaFile "5.jpg" = (some ⟨"5.jpg", .image, 5, "jpg"⟩, []) ∧
    parseMediaFile "5.xyz" =
      (none, ["Unsupported image file type " ++ squoted "xyz" ++ ": " ++ "5.xyz"]) ∧
    parseMediaFile "cover.doc" = (none, []) := by
  refine ⟨by decide, by decide, ?_, by decide⟩
  rfl

/-- Test capabilities: every probe reports 3×4, files are empty, hashing
is the identity, writes succeed. -/
def okCaps : BuildCaps :=
  { media :=
      { probe := fun _ => .ok (some 3, some 4)
        readBytes := fun _ => .ok []
        keccak256 := fun bs => bs }
    write := fun _ => .ok () }

/-- The media collection of the join test: an icon and two images at
index 1, one image at index 2. -/
def mediaJoinTest : List MediaFileInfo :=
  [ ⟨"media/icon-1.png", .icon, 1, "png"⟩
  , ⟨"media/image-1.png", .image, 1, "png"⟩
  , ⟨"media/1.jpg", .image, 1, "jpg"⟩
  , ⟨"media/2.png", .image, 2, "png"⟩ ]

/-- The single token of the join test, index 1. -/
def tokenOne : OpenSeaToken :=
  ⟨"md/1.json", 1, .obj [("name", .str "T"), ("image", .str "img")]⟩

/-- Context of the join test. -/
def ctxJoinTest : BuildCtx :=
  { caps := okCaps
    baseUri := "ipfs://base"
    outputDir := "out"
    links := some []
    mediaFiles := some mediaJoinTest }

/-- The descriptor built for `image-1.png` under `okCaps`. -/
def descOnePng : FileInfoOut :=
  { width := 3, height := 4, hashFunction := "keccak256(bytes)", hash := "0x"
    url := "ipfs://base/1.png" }

/-- The descriptor built for `1.jpg` under `okCaps`. -/
def descOneJpg : FileInfoOut :=
  { width := 3, height := 4, hashFunction := "keccak256(bytes)", hash := "0x"
    url := "ipfs://base/1.jpg" }

/-- C3 (code bug): assembling token 1 against the join-test media joins
only index-1 records — the images field is the outer array holding one
inner array with exactly the two index-1 image descriptors and no index-2
media — but the icon field is `none`: the found icon record resolves to
`undefined` instead of the descriptor the claim (and spec) require. -/
theorem join_scenario_token_one :
    buildMetadata ctxJoinTest (some [tokenOne]) =
      (.ok [("out/1.json",
        { name := some (.str "T")
          description := none
          attributes := none
          icon := none
          images := some [[some descOnePng, some descOneJpg]]
          links := some [] })],
       [PEvent.start 1, PEvent.inc, PEvent.stop]) := rfl

lemma countInc_append (a b : List PEvent) : countInc (a ++ b) = countInc a + countInc b := by
  induction a with
  | nil => simp [countInc]
  | cons e rest ih =>
    cases e with
    | start n => simp [countInc, ih]
    | inc =>
      have ih2 : countInc (rest.append b) = countInc rest + countInc b := ih
      simp only [countInc, List.cons_append, ih2]
      omega
    | stop => simp [countInc, ih]

lemma tokenLoop_count_ok (ctx : BuildCtx) :
    ∀ (ts : List OpenSeaToken) (outs : List (String × LSP4Out)),
      (tokenLoop ctx ts).1 = .ok outs → countInc (tokenLoop ctx ts).2 = ts.length := by
  intro ts
  induction ts with
  | nil => intro outs _; rfl
  | cons t rest ih =>
    intro outs hok
    rcases hs : tokenStep ctx t with e | out
    · rw [show tokenLoop ctx (t :: rest) = (.error e, []) from by
        simp [tokenLoop, hs]] at hok ⊢
      cases hok
    · have hl : tokenLoop ctx (t :: rest) =
          (Except.map (fun outs2 => out :: outs2) (tokenLoop ctx rest).1,
           PEvent.inc :: (tokenLoop ctx rest).2) := by
        simp [tokenLoop, hs]
      rw [hl] at hok ⊢
      rcases hr : (tokenLoop ctx rest).1 with e2 | outs2
      · rw [hr] at hok; cases hok
      · simp only [countInc, List.length_cons]
        rw [ih outs2 hr]

lemma tokenLoop_count_error (ctx : BuildCtx) :
    ∀ (ts : List OpenSeaToken) (e : String),
      (tokenLoop ctx ts).1 = .error e → countInc (tokenLoop ctx ts).2 < ts.length := by
  intro ts
  induction ts with
  | nil => intro e h; cases h
  | cons t rest ih =>
    intro e herr
    rcases hs : tokenStep ctx t with e2 | out
    · rw [show tokenLoop ctx (t :: rest) = (.error e2, []) from by
        simp [tokenLoop, hs]]
      simp [countInc]
    · have hl : tokenLoop ctx (t :: rest) =
          (Except.map (fun outs2 => out :: outs2) (tokenLoop ctx rest).1,
           PEvent.inc :: (tokenLoop ctx rest).2) := by
        simp [tokenLoop, hs]
      rw [hl] at herr ⊢
      rcases hr : (tokenLoop ctx rest).1 with e3 | outs2
      · simp only [countInc, List.length_cons]
        have := ih e3 hr
        omega
      · rw [hr] at herr; cases herr

/-- C9 (amended): the progress reporter is stopped on every exit path —
the trace always ends in `stop` — and one increment fires per
*successfully completed* token: on overall success the increment count
equals the token count, while on a failure the increment of the failing
token is missing, so the count is strictly below the token count. -/
theorem buildMetadata_progress_amended (ctx : BuildCtx) (ts : List OpenSeaToken) :
    (buildMetadata ctx (some ts)).2.getLast? = some PEvent.stop ∧
      (∀ outs, (buildMetadata ctx (some ts)).1 = .ok outs →
        countInc (buildMetadata ctx (some ts)).2 = ts.length) ∧
      (∀ e, (buildMetadata ctx (some ts)).1 = .error e →
        countInc (buildMetadata ctx (some ts)).2 < ts.length) := by
  have hbm : buildMetadata ctx (some ts) =
      ((tokenLoop ctx ts).1,
       PEvent.start ts.length :: ((tokenLoop ctx ts).2 ++ [PEvent.stop])) := by
    simp [buildMetadata]
  rw [hbm]
  refine ⟨?_, ?_, ?_⟩
  · rw [show PEvent.start ts.length :: ((tokenLoop ctx ts).2 ++ [PEvent.stop]) =
      (PEvent.start ts.length :: (tokenLoop ctx ts).2) ++ [PEvent.stop] from rfl]
    exact List.getLast?_concat _
  · intro outs hok
    simp only [countInc, countInc_append]
    rw [tokenLoop_count_ok ctx ts outs hok]
    rfl
  · intro e herr
    simp only [countInc, countInc_append]
    have := tokenLoop_count_error ctx ts e herr
    omega

/-- Closed instance of `buildMetadata_progress_amended` on the successful
join-test run: the trace ends with `stop` and counts one increment for
the one token. -/
theorem buildMetadata_progress_amended_witness :
    (buildMetadata ctxJoinTest (some [tokenOne])).2.getLast? = some PEvent.stop ∧
      countInc (buildMetadata ctxJoinTest (some [tokenOne])).2 = 1 :=
  ⟨(buildMetadata_progress_amended ctxJoinTest [tokenOne]).1,
   (buildMetadata_progress_amended ctxJoinTest [tokenOne]).2.1 _ rfl⟩

/-- Capabilities whose image probe rejects, making every image build
fail. -/
def failProbeCaps : BuildCaps :=
  { media :=
      { probe := fun _ => .error "boom"
        readBytes := fun _ => .ok []
        keccak256 := fun bs => bs }
    write := fun _ => .ok () }

/-- Context in which token 1 has one image record whose build fails. -/
def ctxFailTest : BuildCtx :=
  { caps := failProbeCaps
    baseUri := "b"
    outputDir := "out"
    links := none
    mediaFiles := some [⟨"media/1.png", .image, 1, "png"⟩] }

/-- C9 counterexample: with one token whose media build throws, the run
stops the reporter (the trace is `[start 1, stop]`) but reports zero
progress units although one token was processed — refuting "one unit of
progress per TokenRecord processed regardless of success". -/
theorem progress_unit_missing_for_failed_token :
    buildMetadata ctxFailTest (some [tokenOne]) =
        (.error "boom", [PEvent.start 1, PEvent.stop]) ∧
      countInc (buildMetadata ctxFailTest (some [tokenOne])).2 = 0 := ⟨rfl, rfl⟩

/-- C8: every descriptor the builder produces for an image record has
remote URL `baseUri ++ "/" ++ <decimal index> ++ "." ++ <extension>` (the
numeric index, not the original filename) and hash `"0x"` followed by the
lowercase hex digest of the full read file content. -/
theorem image_descriptor_url_and_hash (caps : MediaCaps) (baseUri : String)
    (info : MediaFileInfo) (fi : FileInfoOut)
    (hcat : info.category = MediaCategory.image)
    (hok : buildFileInfo caps baseUri info = .ok (some fi)) :
    fi.url = baseUri ++ "/" ++ toString info.index ++ "." ++ info.extension ∧
      ∃ content, caps.readBytes info.file = .ok content ∧
        fi.hash = "0x" ++ hexOfBytes (caps.keccak256 content) := by
  obtain ⟨f, cat, idx, ext⟩ := info
  dsimp at hcat
  subst hcat
  dsimp [buildFileInfo] at hok
  rcases hp : caps.probe f with e | wh
  · rw [hp] at hok; cases hok
  · rw [hp] at hok
    obtain ⟨wOpt, hOpt⟩ := wh
    rcases wOpt with _ | w
    · rcases hOpt with _ | h
      · cases hok
      · cases hok
    · rcases hOpt with _ | h
      · cases hok
      · simp only at hok
        by_cases hz : (w == 0 || h == 0) = true
        · rw [if_pos hz] at hok; cases hok
        · rw [if_neg hz] at hok
          rcases hr : caps.readBytes f with e2 | content
          · rw [hr] at hok; cases hok
          · rw [hr] at hok
            simp only [Except.ok.injEq, Option.some.injEq] at hok
            subst hok
            exact ⟨rfl, content, rfl, rfl⟩

/-- Test capabilities for `image_descriptor_url_and_hash`: a 3×4 probe, a
two-byte file, identity hashing. -/
def capsTwoByte : MediaCaps :=
  { probe := fun _ => .ok (some 3, some 4)
    readBytes := fun _ => .ok [0, 255]
    keccak256 := fun bs => bs }

/-- The image record `7.png` used in the C8 witness. -/
def infoSeven : MediaFileInfo := ⟨"media/7.png", .image, 7, "png"⟩

/-- The descriptor built for `infoSeven` under `capsTwoByte`. -/
def descSeven : FileInfoOut :=
  { width := 3, height := 4, hashFunction := "keccak256(bytes)", hash := "0x00ff"
    url := "b/7.png" }

/-- Closed instance of `image_descriptor_url_and_hash` at `infoSeven`. -/
theorem image_descriptor_url_and_hash_witness :
    descSeven.url = "b" ++ "/" ++ toString infoSeven.index ++ "." ++ infoSeven.extension ∧
      ∃ content, capsTwoByte.readBytes infoSeven.file = .ok content ∧
        descSeven.hash = "0x" ++ hexOfBytes (capsTwoByte.keccak256 content) :=
  image_descriptor_url_and_hash capsTwoByte "b" infoSeven descSeven rfl rfl

lemma countLeading_append_ge (p : Char → Bool) (t u : List Char) (h : t.all p = true) :
    t.length ≤ countLeading p (t ++ u) := by
  unfold countLeading
  rw [takeWhile_append_all p t u h]
  simp

lemma countLeading_ge_iff (p : Char → Bool) (n : Nat) (l : List Char) :
    Nat.ble n (countLeading p l) = true ↔
      ∃ t u, l = t ++ u ∧ t.all p = true ∧ n ≤ t.length := by
  rw [Nat.ble_eq]
  constructor
  · intro h
    exact ⟨l.takeWhile p, l.dropWhile p, (List.takeWhile_append_dropWhile p l).symm,
      all_takeWhile p l, h⟩
  · rintro ⟨t, u, rfl, hall, hlen⟩
    exact le_trans hlen (countLeading_append_ge p t u hall)

lemma ipfsAltMatch_iff (rest : List Char) :
    ipfsAltMatch rest = true ↔ ∃ a u, rest = a ++ u ∧ ipfsAddrExact a = true := by
  constructor
  · intro h
    rw [ipfsAltMatch.eq_def] at h
    split at h
    · obtain ⟨t, u, rfl, hall, hlen⟩ := (countLeading_ge_iff _ _ _).mp h
      exact ⟨'Q' :: 'm' :: t, u, rfl, by
        simp [ipfsAddrExact, hall, Nat.ble_eq, hlen]⟩
    · obtain ⟨t, u, rfl, hall, hlen⟩ := (countLeading_ge_iff _ _ _).mp h
      exact ⟨'b' :: t, u, rfl, by simp [ipfsAddrExact, hall, Nat.ble_eq, hlen]⟩
    · obtain ⟨t, u, rfl, hall, hlen⟩ := (countLeading_ge_iff _ _ _).mp h
      exact ⟨'B' :: t, u, rfl, by simp [ipfsAddrExact, hall, Nat.ble_eq, hlen]⟩
    · obtain ⟨t, u, rfl, hall, hlen⟩ := (countLeading_ge_iff _ _ _).mp h
      exact ⟨'z' :: t, u, rfl, by simp [ipfsAddrExact, hall, Nat.ble_eq, hlen]⟩
    · obtain ⟨t, u, rfl, hall, hlen⟩ := (countLeading_ge_iff _ _ _).mp h
      exact ⟨'F' :: t, u, rfl, by simp [ipfsAddrExact, hall, Nat.ble_eq, hlen]⟩
    · cases h
  · rintro ⟨a, u, rfl, hex⟩
    rw [ipfsAddrExact.eq_def] at hex
    split at hex
    · rw [Bool.and_eq_true] at hex
      obtain ⟨hall, hlen⟩ := hex
      show Nat.ble 44 (countLeading base58Char (_ ++ u)) = true
      rw [Nat.ble_eq] at hlen ⊢
      exact le_trans hlen (countLeading_append_ge _ _ _ hall)
    · rw [Bool.and_eq_true] at hex
      obtain ⟨hall, hlen⟩ := hex
      show Nat.ble 58 (countLeading b32AnyChar (_ ++ u)) = true
      rw [Nat.ble_eq] at hlen ⊢
      exact le_trans hlen (countLeading_append_ge _ _ _ hall)
    · rw [Bool.and_eq_true] at hex
      obtain ⟨hall, hlen⟩ := hex
      show Nat.ble 58 (countLeading b32UpChar (_ ++ u)) = true
      rw [Nat.ble_eq] at hlen ⊢
      exact le_trans hlen (countLeading_append_ge _ _ _ hall)
    · rw [Bool.and_eq_true] at hex
      obtain ⟨hall, hlen⟩ := hex
      show Nat.ble 48 (countLeading base58Char (_ ++ u)) = true
      rw [Nat.ble_eq] at hlen ⊢
      exact le_trans hlen (countLeading_append_ge _ _ _ hall)
    · rw [Bool.and_eq_true] at hex
      obtain ⟨hall, hlen⟩ := hex
      show Nat.ble 50 (countLeading hexUpChar (_ ++ u)) = true
      rw [Nat.ble_eq] at hlen ⊢
      exact le_trans hlen (countLeading_append_ge _ _ _ hall)
    · cases hex

lemma ipfsMatchFrom_iff (cs : List Char) :
    ipfsMatchFrom cs = true ↔
      ∃ core post, cs = core ++ post ∧ ipfsUrlConformsChars core = true := by
  constructor
  · intro h
    rw [ipfsMatchFrom.eq_def] at h
    split at h
    · obtain ⟨a, u, rfl, hex⟩ := (ipfsAltMatch_iff _).mp h
      exact ⟨'i' :: 'p' :: 'f' :: 's' :: ':' :: '/' :: '/' :: a, u, rfl, hex⟩
    · cases h
  · rintro ⟨core, post, rfl, hconf⟩
    rw [ipfsUrlConformsChars.eq_def] at hconf
    split at hconf
    · show ipfsAltMatch (_ ++ post) = true
      exact (ipfsAltMatch_iff _).mpr ⟨_, post, rfl, hconf⟩
    · cases hconf

lemma ipfsContains_iff (l : List Char) :
    ipfsContains l = true ↔ ∃ pre suf, l = pre ++ suf ∧ ipfsMatchFrom suf = true := by
  induction l with
  | nil =>
    constructor
    · intro h; cases h
    · rintro ⟨pre, suf, heq, hm⟩
      obtain ⟨rfl, rfl⟩ := List.append_eq_nil.mp heq.symm
      exact absurd hm (by decide)
  | cons c cs ih =>
    constructor
    · intro h
      replace h : (ipfsMatchFrom (c :: cs) || ipfsContains cs) = true := h
      rw [Bool.or_eq_true] at h
      rcases h with hm | hc
      · exact ⟨[], c :: cs, rfl, hm⟩
      · obtain ⟨pre, suf, heq, hm⟩ := ih.mp hc
        exact ⟨c :: pre, suf, by rw [heq]; rfl, hm⟩
    · rintro ⟨pre, suf, heq, hm⟩
      show (ipfsMatchFrom (c :: cs) || ipfsContains cs) = true
      rcases pre with _ | ⟨p, ps⟩
      · rw [List.nil_append] at heq
        subst heq
        simp [hm]
      · rw [List.cons_append] at heq
        obtain ⟨rfl, rfl⟩ : c = p ∧ cs = ps ++ suf :=
          ⟨List.head_eq_of_cons_eq heq, List.tail_eq_of_cons_eq heq⟩
        simp [ih.mpr ⟨ps, suf, rfl, hm⟩]

/-- C2 (amended): the base-URI validator accepts exactly the strings that
*contain* a scheme-token-plus-address substring — the pattern is
unanchored, so arbitrary leading and trailing characters are allowed; in
particular every exactly-conforming string is accepted, and every rejected
input yields the corrected-example message (a re-prompt), never a thrown
error. -/
theorem base_uri_validator_accepts_iff (s : String) :
    baseUriValidate s = Sum.inl true ↔
      ∃ pre core post : List Char,
        s.data = pre ++ core ++ post ∧ ipfsUrlConformsChars core = true := by
  have h1 : baseUriValidate s = Sum.inl true ↔ ipfsUrlAccepts s = true := by
    unfold baseUriValidate
    by_cases h : ipfsUrlAccepts s = true
    · simp [h]
    · simp [h]
  rw [h1]
  show ipfsContains s.data = true ↔ _
  rw [ipfsContains_iff]
  constructor
  · rintro ⟨pre, suf, heq, hm⟩
    obtain ⟨core, post, rfl, hconf⟩ := (ipfsMatchFrom_iff suf).mp hm
    exact ⟨pre, core, post, by rw [heq, List.append_assoc], hconf⟩
  · rintro ⟨pre, core, post, heq, hconf⟩
    exact ⟨pre, core ++ post, by rw [heq, List.append_assoc],
      (ipfsMatchFrom_iff _).mpr ⟨core, post, rfl, hconf⟩⟩

/-- A string that contains a valid ipfs address but has trailing
characters after it, so it does not conform to any address format as a
whole. -/
def overlongIpfsInput : String :=
  "ipfs://Qm" ++ String.mk (List.replicate 44 '1') ++ " trailing junk"

/-- C2 counterexample: the validator accepts `overlongIpfsInput`, a string
that is not one of the fixed address formats (it has trailing junk), so
"accepts if and only if the string conforms" is false. -/
theorem ipfs_validator_accepts_nonconforming :
    ipfsUrlAccepts overlongIpfsInput = true ∧
      ipfsUrlConformsSpec overlongIpfsInput = false := ⟨by decide, by decide⟩

/-- A valid ipfs address embedded between unrelated characters. -/
def embeddedIpfsInput : String :=
  "see ipfs://Qm" ++ String.mk (List.replicate 44 '1') ++ " ok"

/-- Closed instance of `base_uri_validator_accepts_iff`: an input merely
containing an address substring is accepted. -/
theorem base_uri_validator_accepts_iff_witness :
    baseUriValidate embeddedIpfsInput = Sum.inl true :=
  (base_uri_validator_accepts_iff embeddedIpfsInput).mpr
    ⟨"see ".data, ("ipfs://Qm" ++ String.mk (List.replicate 44 '1')).data, " ok".data,
     by decide, by decide⟩

end UPCli
